import Mathlib

/-!
Verification of the dependency-resolution core of cargo-edit
(src/crate_name.rs and src/fetch.rs): specifier parsing, fuzzy crate-name
generation, version selection, repository-URL classification, and the
registry-index retry loop.

Strings are modelled as lists of characters.  The crate names and URLs the
program manipulates are ASCII, for which the byte-level operations of the
source coincide with the character-level operations used here.
-/

/-! ## Lawful three-way comparators -/

/-- Lawfulness of a three-way comparator: `eq` answers characterise
equality, the comparator is antisymmetric under `swap`, and strict
comparison is transitive.  These are the properties the semver ordering
needs for maximum selection to be well behaved. -/
structure LawCmp {α : Type} (cmp : α → α → Ordering) : Prop where
  eq_iff : ∀ a b, cmp a b = .eq ↔ a = b
  orient : ∀ a b, cmp b a = (cmp a b).swap
  lt_trans : ∀ a b c, cmp a b = .lt → cmp b c = .lt → cmp a c = .lt

theorem LawCmp.refl {α : Type} {cmp : α → α → Ordering} (h : LawCmp cmp)
    (a : α) : cmp a a = .eq := (h.eq_iff a a).mpr rfl

theorem LawCmp.not_gt_iff {α : Type} {cmp : α → α → Ordering} (h : LawCmp cmp)
    {a b : α} : cmp a b ≠ .gt ↔ cmp a b = .lt ∨ cmp a b = .eq := by
  cases hc : cmp a b <;> simp

theorem LawCmp.le_trans {α : Type} {cmp : α → α → Ordering} (h : LawCmp cmp)
    {a b c : α} (hab : cmp a b ≠ .gt) (hbc : cmp b c ≠ .gt) :
    cmp a c ≠ .gt := by
  rcases h.not_gt_iff.mp hab with h1 | h1
  · rcases h.not_gt_iff.mp hbc with h2 | h2
    · exact h.not_gt_iff.mpr (Or.inl (h.lt_trans a b c h1 h2))
    · exact h.not_gt_iff.mpr (Or.inl (((h.eq_iff b c).mp h2) ▸ h1))
  · exact ((h.eq_iff a b).mp h1) ▸ hbc

theorem LawCmp.gt_swap {α : Type} {cmp : α → α → Ordering} (h : LawCmp cmp)
    {a b : α} (hab : cmp a b = .gt) : cmp b a ≠ .gt := by
  rw [h.orient, hab]
  simp [Ordering.swap]

/-- Three-way comparison on naturals. -/
def cmpN (a b : Nat) : Ordering :=
  if a < b then .lt else if a = b then .eq else .gt

theorem cmpN_eq_lt {a b : Nat} : cmpN a b = .lt ↔ a < b := by
  unfold cmpN
  by_cases h1 : a < b
  · simp [h1]
  · by_cases h2 : a = b <;> simp [h1, h2]

theorem cmpN_eq_eq {a b : Nat} : cmpN a b = .eq ↔ a = b := by
  unfold cmpN
  by_cases h1 : a < b
  · simp [h1]
    omega
  · by_cases h2 : a = b <;> simp [h1, h2]

theorem cmpN_eq_gt {a b : Nat} : cmpN a b = .gt ↔ b < a := by
  unfold cmpN
  by_cases h1 : a < b
  · simp [h1]
    omega
  · by_cases h2 : a = b <;> simp [h1, h2] <;> omega

theorem lawCmpN : LawCmp cmpN := by
  constructor
  · intro a b
    exact cmpN_eq_eq
  · intro a b
    rcases Nat.lt_trichotomy a b with h | h | h
    · rw [cmpN_eq_lt.mpr h, cmpN_eq_gt.mpr h]
      rfl
    · subst h
      rw [cmpN_eq_eq.mpr rfl]
      rfl
    · rw [cmpN_eq_gt.mpr h, cmpN_eq_lt.mpr h]
      rfl
  · intro a b c hab hbc
    exact cmpN_eq_lt.mpr (Nat.lt_trans (cmpN_eq_lt.mp hab) (cmpN_eq_lt.mp hbc))

/-- Three-way comparison on characters by code point (ASCII byte order on
ASCII input, as the semver crate compares identifier bytes). -/
def cmpChar (a b : Char) : Ordering := cmpN a.toNat b.toNat

theorem lawCmpChar : LawCmp cmpChar := by
  constructor
  · intro a b
    unfold cmpChar
    rw [cmpN_eq_eq]
    constructor
    · intro h
      exact Char.ext (UInt32.ext h)
    · intro h
      rw [h]
  · intro a b
    exact lawCmpN.orient _ _
  · intro a b c
    exact lawCmpN.lt_trans _ _ _

/-- Lexicographic comparison of lists with a head comparator; the empty
list is smallest and a proper prefix is smaller than its extensions (the
semver rule for comparing prerelease identifier sequences). -/
def listCmp {α : Type} (cmp : α → α → Ordering) : List α → List α → Ordering
  | [], [] => .eq
  | [], _ :: _ => .lt
  | _ :: _, [] => .gt
  | a :: as, b :: bs => (cmp a b).then (listCmp cmp as bs)

theorem lawListCmp {α : Type} {cmp : α → α → Ordering} (h : LawCmp cmp) :
    LawCmp (listCmp cmp) := by
  constructor
  · intro a
    induction a with
    | nil => intro b; cases b <;> simp [listCmp]
    | cons x xs ih =>
      intro b
      cases b with
      | nil => simp [listCmp]
      | cons y ys =>
        simp [listCmp, Ordering.then_eq_eq, h.eq_iff, ih]
  · intro a
    induction a with
    | nil => intro b; cases b <;> simp [listCmp, Ordering.swap]
    | cons x xs ih =>
      intro b
      cases b with
      | nil => simp [listCmp, Ordering.swap]
      | cons y ys =>
        simp only [listCmp]
        rw [h.orient, ih]
        cases cmp x y <;> cases listCmp cmp xs ys <;>
          simp [Ordering.then, Ordering.swap]
  · intro a
    induction a with
    | nil =>
      intro b c hab hbc
      cases b with
      | nil => simpa [listCmp] using hbc
      | cons y ys =>
        cases c with
        | nil => simp [listCmp] at hbc
        | cons z zs => simp [listCmp]
    | cons x xs ih =>
      intro b c hab hbc
      cases b with
      | nil => simp [listCmp] at hab
      | cons y ys =>
        cases c with
        | nil => simp [listCmp] at hbc
        | cons z zs =>
          simp only [listCmp, Ordering.then_eq_lt] at hab hbc ⊢
          rcases hab with h1 | ⟨h1, h1t⟩ <;> rcases hbc with h2 | ⟨h2, h2t⟩
          · exact Or.inl (h.lt_trans _ _ _ h1 h2)
          · exact Or.inl (((h.eq_iff y z).mp h2) ▸ h1)
          · exact Or.inl (((h.eq_iff x y).mp h1) ▸ h2)
          · exact Or.inr ⟨((h.eq_iff x y).mp h1) ▸ h2,
              ih ys zs h1t h2t⟩

/-! ## Semantic versions

Modelled from the spec: the `semver` crate is external to this repository.
The spec states the ordering used by version selection: "standard
precedence: major, minor, patch, then prerelease identifiers ordered as
per semantic-versioning rules — a release version is always greater than
any prerelease with the same major.minor.patch".  A prerelease identifier
is numeric or alphanumeric; numeric identifiers compare numerically and
are lower than alphanumeric ones, which compare by byte order.  Build
metadata does not participate in precedence and is omitted from the
model. -/

/-- One prerelease identifier of a semantic version. -/
inductive PreId : Type
  | num (n : Nat)
  | alpha (s : List Char)
deriving DecidableEq, Repr

/-- Comparison of prerelease identifiers: numeric below alphanumeric,
numeric by value, alphanumeric by byte order. -/
def cmpPreId : PreId → PreId → Ordering
  | .num a, .num b => cmpN a b
  | .num _, .alpha _ => .lt
  | .alpha _, .num _ => .gt
  | .alpha a, .alpha b => listCmp cmpChar a b

theorem lawCmpPreId : LawCmp cmpPreId := by
  constructor
  · intro a b
    cases a <;> cases b <;>
      simp [cmpPreId, cmpN_eq_eq, (lawListCmp lawCmpChar).eq_iff]
  · intro a b
    cases a <;> cases b
    · exact lawCmpN.orient _ _
    · rfl
    · rfl
    · exact (lawListCmp lawCmpChar).orient _ _
  · intro a b c hab hbc
    cases a <;> cases b <;> cases c <;>
      simp_all only [cmpPreId] <;>
      first
      | rfl
      | exact lawCmpN.lt_trans _ _ _ hab hbc
      | exact (lawListCmp lawCmpChar).lt_trans _ _ _ hab hbc
      | simp at hab
      | simp at hbc

/-- Comparison of full prerelease tags: the empty tag denotes a release,
which is greater than any prerelease; nonempty tags compare identifier by
identifier with the shorter prefix lower. -/
def cmpPre : List PreId → List PreId → Ordering
  | [], [] => .eq
  | [], _ :: _ => .gt
  | _ :: _, [] => .lt
  | a :: as, b :: bs => (cmpPreId a b).then (listCmp cmpPreId as bs)

theorem cmpPre_cons_cons (a b : PreId) (as bs : List PreId) :
    cmpPre (a :: as) (b :: bs) = listCmp cmpPreId (a :: as) (b :: bs) := rfl

theorem lawCmpPre : LawCmp cmpPre := by
  constructor
  · intro a b
    cases a with
    | nil => cases b <;> simp [cmpPre]
    | cons x xs =>
      cases b with
      | nil => simp [cmpPre]
      | cons y ys =>
        rw [cmpPre_cons_cons]
        exact (lawListCmp lawCmpPreId).eq_iff _ _
  · intro a b
    cases a with
    | nil => cases b <;> simp [cmpPre, Ordering.swap]
    | cons x xs =>
      cases b with
      | nil => simp [cmpPre, Ordering.swap]
      | cons y ys =>
        rw [cmpPre_cons_cons, cmpPre_cons_cons]
        exact (lawListCmp lawCmpPreId).orient _ _
  · intro a b c hab hbc
    cases a with
    | nil =>
      cases b with
      | nil => simp [cmpPre] at hab
      | cons y ys => simp [cmpPre] at hab
    | cons x xs =>
      cases b with
      | nil =>
        cases c with
        | nil => simp [cmpPre] at hbc
        | cons z zs => simp [cmpPre] at hbc
      | cons y ys =>
        cases c with
        | nil => simp [cmpPre]
        | cons z zs =>
          rw [cmpPre_cons_cons] at hab hbc ⊢
          exact (lawListCmp lawCmpPreId).lt_trans _ _ _ hab hbc

/-- A semantic version as the ordering sees it. -/
structure SemVer : Type where
  major : Nat
  minor : Nat
  patch : Nat
  pre : List PreId
deriving DecidableEq, Repr

/-- Semantic-version precedence: major, then minor, then patch, then the
prerelease tag. -/
def SemVer.cmp (a b : SemVer) : Ordering :=
  (cmpN a.major b.major).then ((cmpN a.minor b.minor).then
    ((cmpN a.patch b.patch).then (cmpPre a.pre b.pre)))

theorem lawSemVerCmp : LawCmp SemVer.cmp := by
  constructor
  · intro a b
    simp only [SemVer.cmp, Ordering.then_eq_eq, cmpN_eq_eq,
      lawCmpPre.eq_iff]
    constructor
    · rintro ⟨h1, h2, h3, h4⟩
      cases a
      cases b
      simp_all
    · rintro rfl
      simp
  · intro a b
    simp only [SemVer.cmp, Ordering.swap_then]
    rw [lawCmpN.orient a.major, lawCmpN.orient a.minor,
      lawCmpN.orient a.patch, lawCmpPre.orient a.pre]
  · intro a b c hab hbc
    simp only [SemVer.cmp, Ordering.then_eq_lt, cmpN_eq_lt, cmpN_eq_eq]
      at hab hbc ⊢
    rcases hab with h1 | ⟨h1, hab⟩
    · rcases hbc with h2 | ⟨h2, _⟩
      · exact Or.inl (Nat.lt_trans h1 h2)
      · exact Or.inl (h2 ▸ h1)
    · rcases hbc with h2 | ⟨h2, hbc⟩
      · exact Or.inl (h1 ▸ h2)
      · refine Or.inr ⟨h1.trans h2, ?_⟩
        rcases hab with h3 | ⟨h3, hab⟩
        · rcases hbc with h4 | ⟨h4, _⟩
          · exact Or.inl (Nat.lt_trans h3 h4)
          · exact Or.inl (h4 ▸ h3)
        · rcases hbc with h4 | ⟨h4, hbc⟩
          · exact Or.inl (h3 ▸ h4)
          · refine Or.inr ⟨h3.trans h4, ?_⟩
            rcases hab with h5 | ⟨h5, hab⟩
            · rcases hbc with h6 | ⟨h6, _⟩
              · exact Or.inl (Nat.lt_trans h5 h6)
              · exact Or.inl (h6 ▸ h5)
            · rcases hbc with h6 | ⟨h6, hbc⟩
              · exact Or.inl (h5 ▸ h6)
              · exact Or.inr ⟨h5.trans h6,
                  lawCmpPre.lt_trans _ _ _ hab hbc⟩

/-- A semantic version is a prerelease when its prerelease tag is
nonempty (VersionExt::is_prerelease in the source crate). -/
def SemVer.is_prerelease (v : SemVer) : Bool := !v.pre.isEmpty

/-! ## Crate version records and dependency descriptors (src/fetch.rs) -/

/-- One record of a crate version as read from the registry index
(struct CrateVersion in src/fetch.rs). -/
structure CrateVersion : Type where
  name : List Char
  version : SemVer
  yanked : Bool
  available_features : List (List Char)
deriving DecidableEq, Repr

/-- A resolved dependency descriptor: the fields of Dependency that the
functions under verification construct (name, optional version text,
optional requested features, available features). -/
structure Dependency : Type where
  name : List Char
  version : Option (List Char)
  features : Option (List (List Char))
  available_features : List (List Char)
deriving DecidableEq, Repr

/-- Rendering of a natural number in decimal, as semver's Display does. -/
def renderNat (n : Nat) : List Char := Nat.toDigits 10 n

/-- Rendering of one prerelease identifier. -/
def renderPreId : PreId → List Char
  | .num n => renderNat n
  | .alpha s => s

/-- Rendering of a dot-separated prerelease identifier sequence. -/
def renderIds : List PreId → List Char
  | [] => []
  | [x] => renderPreId x
  | x :: y :: xs => renderPreId x ++ '.' :: renderIds (y :: xs)

/-- Rendering of a semantic version to its canonical string, as
semver's Display (used by version.to_string() in read_latest_version). -/
def SemVer.render (v : SemVer) : List Char :=
  renderNat v.major ++ '.' :: renderNat v.minor ++ '.' :: renderNat v.patch
    ++ (if v.pre.isEmpty then [] else '-' :: renderIds v.pre)

/-- Checks whether a version record is a stable release
(version_is_stable in src/fetch.rs). -/
def version_is_stable (v : CrateVersion) : Bool := !v.version.is_prerelease

/-- Errors surfaced by version selection (ErrorKind in the source's
errors module). -/
inductive FetchError : Type
  | NoVersionsAvailable
deriving DecidableEq, Repr

/-- One step of Iterator::max_by_key on the version key: the later record
wins ties, the greater version wins otherwise. -/
def pickMax (m v : CrateVersion) : CrateVersion :=
  if SemVer.cmp m.version v.version = .gt then m else v

/-- Iterator::max_by_key over version records keyed by their semantic
version: none on an empty list, otherwise the left fold of `pickMax`
(ties resolved towards the later record, as in Rust). -/
def maxByVer : List CrateVersion → Option CrateVersion
  | [] => none
  | v :: vs => some (vs.foldl pickMax v)

/-- Read latest version from a Versions structure
(read_latest_version in src/fetch.rs): keep records that are stable
unless prereleases are allowed, drop yanked records, take the maximum by
semantic version, and fail with NoVersionsAvailable when nothing is
left. -/
def read_latest_version (versions : List CrateVersion)
    (flag_allow_prerelease : Bool) : Except FetchError Dependency :=
  match maxByVer ((versions.filter
      (fun v => flag_allow_prerelease || version_is_stable v)).filter
      (fun v => !v.yanked)) with
  | none => .error .NoVersionsAvailable
  | some latest =>
      .ok { name := latest.name
            version := some latest.version.render
            features := none
            available_features := latest.available_features }

deriving instance DecidableEq for Except

example :
    read_latest_version
      [⟨[], ⟨0, 6, 0, [.alpha ['a']]⟩, false, []⟩,
       ⟨[], ⟨0, 5, 0, []⟩, false, []⟩] false
    = .ok ⟨[], some ['0', '.', '5', '.', '0'], none, []⟩ := by decide

example :
    read_latest_version
      [⟨[], ⟨0, 6, 0, [.alpha ['a']]⟩, false, []⟩,
       ⟨[], ⟨0, 5, 0, []⟩, false, []⟩] true
    = .ok ⟨[], some ['0', '.', '6', '.', '0', '-', 'a'], none, []⟩ := by
  decide

/-! ## Properties of max-by-version selection -/

theorem pickMax_cases (m v : CrateVersion) :
    pickMax m v = m ∨ pickMax m v = v := by
  unfold pickMax
  split <;> simp

theorem le_pickMax_left (m v : CrateVersion) :
    SemVer.cmp m.version (pickMax m v).version ≠ .gt := by
  unfold pickMax
  split <;> rename_i h
  · rw [lawSemVerCmp.refl]
    simp
  · exact h

theorem le_pickMax_right (m v : CrateVersion) :
    SemVer.cmp v.version (pickMax m v).version ≠ .gt := by
  unfold pickMax
  split <;> rename_i h
  · exact lawSemVerCmp.gt_swap h
  · rw [lawSemVerCmp.refl]
    simp

theorem foldl_pickMax_mem :
    ∀ (vs : List CrateVersion) (v : CrateVersion),
      vs.foldl pickMax v = v ∨ vs.foldl pickMax v ∈ vs := by
  intro vs
  induction vs with
  | nil => intro v; simp
  | cons u us ih =>
    intro v
    simp only [List.foldl_cons]
    rcases pickMax_cases v u with h | h <;> rw [h]
    · rcases ih v with h2 | h2
      · exact Or.inl h2
      · exact Or.inr (List.mem_cons_of_mem _ h2)
    · rcases ih u with h2 | h2
      · refine Or.inr ?_
        rw [h2]
        exact List.mem_cons_self _ _
      · exact Or.inr (List.mem_cons_of_mem _ h2)

theorem foldl_pickMax_ge :
    ∀ (vs : List CrateVersion) (v : CrateVersion),
      SemVer.cmp v.version (vs.foldl pickMax v).version ≠ .gt ∧
      ∀ u ∈ vs, SemVer.cmp u.version (vs.foldl pickMax v).version ≠ .gt := by
  intro vs
  induction vs with
  | nil =>
    intro v
    simp only [List.foldl_nil]
    constructor
    · rw [lawSemVerCmp.refl]
      simp
    · simp
  | cons u us ih =>
    intro v
    simp only [List.foldl_cons]
    obtain ⟨hacc, hall⟩ := ih (pickMax v u)
    refine ⟨lawSemVerCmp.le_trans (le_pickMax_left v u) hacc, ?_⟩
    intro w hw
    rcases List.mem_cons.mp hw with rfl | hw
    · exact lawSemVerCmp.le_trans (le_pickMax_right v w) hacc
    · exact hall w hw

theorem maxByVer_mem {l : List CrateVersion} {m : CrateVersion}
    (h : maxByVer l = some m) : m ∈ l := by
  cases l with
  | nil => simp [maxByVer] at h
  | cons v vs =>
    simp only [maxByVer, Option.some.injEq] at h
    rcases foldl_pickMax_mem vs v with h2 | h2
    · rw [← h, h2]
      exact List.mem_cons_self _ _
    · rw [← h]
      exact List.mem_cons_of_mem _ h2

theorem maxByVer_ge {l : List CrateVersion} {m : CrateVersion}
    (h : maxByVer l = some m) :
    ∀ v ∈ l, SemVer.cmp v.version m.version ≠ .gt := by
  cases l with
  | nil => simp [maxByVer] at h
  | cons v vs =>
    simp only [maxByVer, Option.some.injEq] at h
    intro w hw
    obtain ⟨hacc, hall⟩ := foldl_pickMax_ge vs v
    rcases List.mem_cons.mp hw with rfl | hw
    · exact h ▸ hacc
    · exact h ▸ hall w hw

theorem maxByVer_eq_none_iff {l : List CrateVersion} :
    maxByVer l = none ↔ l = [] := by
  cases l <;> simp [maxByVer]

theorem read_latest_version_ok {versions : List CrateVersion} {flag : Bool}
    {dep : Dependency} (h : read_latest_version versions flag = .ok dep) :
    ∃ latest,
      maxByVer ((versions.filter
        (fun v => flag || version_is_stable v)).filter
        (fun v => !v.yanked)) = some latest ∧
      dep = ⟨latest.name, some latest.version.render, none,
        latest.available_features⟩ := by
  unfold read_latest_version at h
  split at h <;> rename_i heq
  · cases h
  · cases h
    exact ⟨_, heq, rfl⟩

/-! ## Claims about version selection -/

/-- C1: for every list of crate version records and every value of the
allow-prerelease flag, read_latest_version never chooses a yanked record
and never chooses a prerelease record when the flag is false; when the
flag is true the prerelease filter is a no-op, so prerelease records are
eligible alongside stable ones. -/
theorem claim_C1 :
    (∀ (versions : List CrateVersion) (flag : Bool) (dep : Dependency),
      read_latest_version versions flag = .ok dep →
      ∃ r ∈ versions, r.yanked = false ∧
        (flag = false → r.version.is_prerelease = false) ∧
        dep = ⟨r.name, some r.version.render, none, r.available_features⟩) ∧
    (∀ versions : List CrateVersion,
      versions.filter (fun v => true || version_is_stable v) = versions) := by
  constructor
  · intro versions flag dep h
    obtain ⟨latest, hmax, hdep⟩ := read_latest_version_ok h
    have hmem := maxByVer_mem hmax
    rw [List.mem_filter] at hmem
    obtain ⟨hmem1, hyank⟩ := hmem
    rw [List.mem_filter] at hmem1
    obtain ⟨hmem0, hstab⟩ := hmem1
    refine ⟨latest, hmem0, by simpa using hyank, ?_, hdep⟩
    intro hflag
    subst hflag
    simp only [Bool.false_or] at hstab
    unfold version_is_stable at hstab
    simpa using hstab
  · intro versions
    simp

/-- Witness for C1: on the record set of the source's own test
(0.6.0-alpha and 0.5.0, neither yanked) with prereleases disallowed,
selection succeeds and the chosen record is unyanked and stable. -/
theorem claim_C1_witness :
    ∃ r ∈ [⟨['f'], ⟨0, 6, 0, [.alpha ['a']]⟩, false, []⟩,
           (⟨['f'], ⟨0, 5, 0, []⟩, false, []⟩ : CrateVersion)],
      r.yanked = false ∧
      (false = false → r.version.is_prerelease = false) ∧
      (⟨['f'], some ['0', '.', '5', '.', '0'], none, []⟩ : Dependency)
        = ⟨r.name, some r.version.render, none, r.available_features⟩ :=
  claim_C1.1
    [⟨['f'], ⟨0, 6, 0, [.alpha ['a']]⟩, false, []⟩,
     ⟨['f'], ⟨0, 5, 0, []⟩, false, []⟩] false
    ⟨['f'], some ['0', '.', '5', '.', '0'], none, []⟩ (by decide)

/-- C2: after discarding yanked and disallowed prerelease records,
read_latest_version fails with NoVersionsAvailable exactly when the
filtered set is empty; on success it returns the rendered string of a
maximum remaining record under semantic-version precedence together with
that record's available features; and under that precedence a release
version is greater than any prerelease of the same major.minor.patch. -/
theorem claim_C2 :
    (∀ (versions : List CrateVersion) (flag : Bool),
      (read_latest_version versions flag = .error .NoVersionsAvailable ↔
        (versions.filter (fun v => flag || version_is_stable v)).filter
          (fun v => !v.yanked) = []) ∧
      (∀ dep, read_latest_version versions flag = .ok dep →
        ∃ m ∈ (versions.filter (fun v => flag || version_is_stable v)).filter
            (fun v => !v.yanked),
          (∀ v ∈ (versions.filter
              (fun v => flag || version_is_stable v)).filter
              (fun v => !v.yanked),
            SemVer.cmp v.version m.version ≠ .gt) ∧
          dep.version = some m.version.render ∧
          dep.available_features = m.available_features)) ∧
    (∀ a b : SemVer, a.major = b.major → a.minor = b.minor →
      a.patch = b.patch → a.pre ≠ [] → b.pre = [] →
      SemVer.cmp a b = .lt) := by
  constructor
  · intro versions flag
    constructor
    · constructor
      · intro h
        unfold read_latest_version at h
        split at h <;> rename_i heq
        · exact maxByVer_eq_none_iff.mp heq
        · cases h
      · intro h
        unfold read_latest_version
        rw [h]
        rfl
    · intro dep h
      obtain ⟨latest, hmax, hdep⟩ := read_latest_version_ok h
      exact ⟨latest, maxByVer_mem hmax, maxByVer_ge hmax,
        by rw [hdep], by rw [hdep]⟩
  · intro a b h1 h2 h3 h4 h5
    have e1 : cmpN a.major b.major = .eq := cmpN_eq_eq.mpr h1
    have e2 : cmpN a.minor b.minor = .eq := cmpN_eq_eq.mpr h2
    have e3 : cmpN a.patch b.patch = .eq := cmpN_eq_eq.mpr h3
    unfold SemVer.cmp
    rw [e1, e2, e3, h5]
    cases hp : a.pre with
    | nil => exact absurd hp h4
    | cons x xs => simp [cmpPre, Ordering.then]

/-- Witness for C2: a record set with a yanked 0.3.1 and an unyanked
0.3.0 selects 0.3.0 as the maximum of the filtered set. -/
theorem claim_C2_witness :
    ∃ m ∈ ([⟨['t'], ⟨0, 3, 1, []⟩, true, []⟩,
            (⟨['t'], ⟨0, 3, 0, []⟩, false, []⟩ : CrateVersion)].filter
        (fun v => false || version_is_stable v)).filter (fun v => !v.yanked),
      (∀ v ∈ ([⟨['t'], ⟨0, 3, 1, []⟩, true, []⟩,
               (⟨['t'], ⟨0, 3, 0, []⟩, false, []⟩ : CrateVersion)].filter
          (fun v => false || version_is_stable v)).filter
          (fun v => !v.yanked),
        SemVer.cmp v.version m.version ≠ .gt) ∧
      (⟨['t'], some ['0', '.', '3', '.', '0'], none, []⟩ :
        Dependency).version = some m.version.render ∧
      (⟨['t'], some ['0', '.', '3', '.', '0'], none, []⟩ :
        Dependency).available_features = m.available_features :=
  ((claim_C2.1
    [⟨['t'], ⟨0, 3, 1, []⟩, true, []⟩,
     ⟨['t'], ⟨0, 3, 0, []⟩, false, []⟩] false).2
    ⟨['t'], some ['0', '.', '3', '.', '0'], none, []⟩ (by decide))

/-! ## Fuzzy crate-name generation (gen_fuzzy_crate_names, src/fetch.rs) -/

/-- Separator predicate: the PATTERN constant of gen_fuzzy_crate_names. -/
def isSep (c : Char) : Bool := c = '-' || c = '_'

/-- Positions of separator characters, counting from offset i
(bytes().enumerate().filter(...).map(index) in the source). -/
def sepPositions : List Char → Nat → List Nat
  | [], _ => []
  | c :: cs, i =>
      if isSep c then i :: sepPositions cs (i + 1) else sepPositions cs (i + 1)

/-- The inner loop of gen_fuzzy_crate_names: write each wildcard index
with '-' when the corresponding mask bit (counting from maskIndex k) is
set, with '_' otherwise. -/
def setWildcards : List Char → List Nat → Nat → Nat → List Char
  | bs, [], _, _ => bs
  | bs, i :: rest, mask, k =>
      setWildcards (if (mask >>> k) &&& 1 = 1 then bs.set i '-' else bs.set i '_')
        rest mask (k + 1)

/-- Generate all similar crate names (gen_fuzzy_crate_names in
src/fetch.rs): take the first 10 separator positions; when there are
none, return just the input; otherwise return one variant per bitmask
below 2^(number of taken positions).  The source's Result return type is
always Ok and is dropped. -/
def gen_fuzzy_crate_names (crate_name : List Char) : List (List Char) :=
  let wildcardIdxs := (sepPositions crate_name 0).take 10
  if wildcardIdxs = [] then [crate_name]
  else (List.range (2 ^ wildcardIdxs.length)).map
    (fun mask => setWildcards crate_name wildcardIdxs mask 0)

example : gen_fuzzy_crate_names ['c', 'a', 'r', 'g', 'o'] =
    [['c', 'a', 'r', 'g', 'o']] := by decide

example : gen_fuzzy_crate_names ['D', 'C', '-', 'j'] =
    [['D', 'C', '_', 'j'], ['D', 'C', '-', 'j']] := by decide

example : gen_fuzzy_crate_names ['D', '-', '_', 'j'] =
    [['D', '_', '_', 'j'], ['D', '-', '_', 'j'],
     ['D', '_', '-', 'j'], ['D', '-', '-', 'j']] := by decide

example : gen_fuzzy_crate_names ['-'] = [['_'], ['-']] := by decide

theorem length_setWildcards :
    ∀ (idxs : List Nat) (bs : List Char) (mask k : Nat),
      (setWildcards bs idxs mask k).length = bs.length := by
  intro idxs
  induction idxs with
  | nil => intro bs mask k; rfl
  | cons i rest ih =>
    intro bs mask k
    simp only [setWildcards]
    rw [ih]
    split <;> rw [List.length_set]

theorem getElem?_setWildcards_not_mem :
    ∀ (idxs : List Nat) (bs : List Char) (mask k j : Nat), j ∉ idxs →
      (setWildcards bs idxs mask k)[j]? = bs[j]? := by
  intro idxs
  induction idxs with
  | nil => intro bs mask k j _; rfl
  | cons i rest ih =>
    intro bs mask k j hj
    simp only [setWildcards]
    rw [ih _ _ _ _ (fun h => hj (List.mem_cons_of_mem _ h))]
    have hne : i ≠ j := fun h => hj (h ▸ List.mem_cons_self _ _)
    split <;> exact List.getElem?_set_ne hne

theorem getElem?_setWildcards_at :
    ∀ (idxs : List Nat) (bs : List Char) (mask k n : Nat)
      (hn : n < idxs.length), idxs.Nodup →
      idxs.get ⟨n, hn⟩ < bs.length →
      (setWildcards bs idxs mask k)[idxs.get ⟨n, hn⟩]? =
        some (if (mask >>> (k + n)) &&& 1 = 1 then '-' else '_') := by
  intro idxs
  induction idxs with
  | nil => intro bs mask k n hn; simp at hn
  | cons i rest ih =>
    intro bs mask k n hn hnd hb
    cases n with
    | zero =>
      have hi : i ∉ rest := (List.nodup_cons.mp hnd).1
      simp only [setWildcards, List.get]
      rw [getElem?_setWildcards_not_mem rest _ mask (k + 1) i hi,
        Nat.add_zero]
      have hib : i < bs.length := hb
      split <;> exact List.getElem?_set_self hib
    | succ m =>
      have hnd2 := (List.nodup_cons.mp hnd).2
      have hm : m < rest.length := Nat.lt_of_succ_lt_succ hn
      simp only [setWildcards, List.get]
      have hb2 : rest.get ⟨m, hm⟩ <
          (if (mask >>> k) &&& 1 = 1 then bs.set i '-'
           else bs.set i '_').length := by
        split <;> rw [List.length_set] <;> exact hb
      have := ih _ mask (k + 1) m hm hnd2 hb2
      rw [show k + 1 + m = k + (m + 1) by omega] at this
      exact this

theorem sepPositions_length :
    ∀ (cs : List Char) (i : Nat),
      (sepPositions cs i).length = (cs.filter isSep).length := by
  intro cs
  induction cs with
  | nil => intro i; rfl
  | cons c cs ih =>
    intro i
    cases h : isSep c <;>
      simp [sepPositions, List.filter_cons, h, ih]

theorem sepPositions_lower :
    ∀ (cs : List Char) (i j : Nat), j ∈ sepPositions cs i → i ≤ j := by
  intro cs
  induction cs with
  | nil => intro i j h; simp [sepPositions] at h
  | cons c cs ih =>
    intro i j h
    simp only [sepPositions] at h
    split at h
    · rcases List.mem_cons.mp h with rfl | h2
      · exact le_refl _
      · have := ih (i + 1) j h2
        omega
    · have := ih (i + 1) j h
      omega

theorem sepPositions_nodup :
    ∀ (cs : List Char) (i : Nat), (sepPositions cs i).Nodup := by
  intro cs
  induction cs with
  | nil => intro i; simp [sepPositions]
  | cons c cs ih =>
    intro i
    simp only [sepPositions]
    split
    · refine List.nodup_cons.mpr ⟨?_, ih (i + 1)⟩
      intro hmem
      have := sepPositions_lower cs (i + 1) i hmem
      omega
    · exact ih (i + 1)

theorem mem_sepPositions_iff :
    ∀ (cs : List Char) (i j : Nat),
      j ∈ sepPositions cs i ↔
        i ≤ j ∧ ∃ c, cs[j - i]? = some c ∧ isSep c = true := by
  intro cs
  induction cs with
  | nil => intro i j; simp [sepPositions]
  | cons c cs ih =>
    intro i j
    simp only [sepPositions]
    by_cases hc : isSep c
    · rw [if_pos hc, List.mem_cons, ih (i + 1) j]
      constructor
      · rintro (rfl | ⟨hij, d, hd, hsep⟩)
        · exact ⟨le_refl _, c, by simp, hc⟩
        · refine ⟨by omega, d, ?_, hsep⟩
          rw [show j - i = (j - (i + 1)) + 1 by omega]
          simpa using hd
      · rintro ⟨hij, d, hd, hsep⟩
        by_cases hji : j = i
        · exact Or.inl hji
        · refine Or.inr ⟨by omega, d, ?_, hsep⟩
          rw [show j - i = (j - (i + 1)) + 1 by omega] at hd
          simpa using hd
    · rw [if_neg hc, ih (i + 1) j]
      constructor
      · rintro ⟨hij, d, hd, hsep⟩
        refine ⟨by omega, d, ?_, hsep⟩
        rw [show j - i = (j - (i + 1)) + 1 by omega]
        simpa using hd
      · rintro ⟨hij, d, hd, hsep⟩
        by_cases hji : j = i
        · subst hji
          rw [Nat.sub_self] at hd
          simp only [List.getElem?_cons_zero, Option.some.injEq] at hd
          exact absurd (hd ▸ hsep) (by simpa using hc)
        · refine ⟨by omega, d, ?_, hsep⟩
          rw [show j - i = (j - (i + 1)) + 1 by omega] at hd
          simpa using hd

theorem mem_sepPositions_zero (cs : List Char) (j : Nat) :
    j ∈ sepPositions cs 0 ↔ ∃ c, cs[j]? = some c ∧ isSep c = true := by
  rw [mem_sepPositions_iff]
  simp

theorem sep_take_spec (name : List Char) :
    ∀ j ∈ (sepPositions name 0).take 10,
      ∃ c, name[j]? = some c ∧ isSep c = true :=
  fun j hj => (mem_sepPositions_zero name j).mp (List.mem_of_mem_take hj)

theorem sep_take_nodup (name : List Char) :
    ((sepPositions name 0).take 10).Nodup :=
  (List.take_sublist _ _).nodup (sepPositions_nodup name 0)

theorem sep_take_lt (name : List Char) :
    ∀ j ∈ (sepPositions name 0).take 10, j < name.length := by
  intro j hj
  obtain ⟨c, hc, _⟩ := sep_take_spec name j hj
  rw [List.getElem?_eq_some] at hc
  exact hc.1

theorem shift_and_one (m n : Nat) :
    ((m >>> n) &&& 1 = 1) ↔ m.testBit n = true := by
  rw [Nat.and_one_is_mod, Nat.shiftRight_eq_div_pow, Nat.testBit_to_div_mod]
  simp

theorem gen_fuzzy_mem_cases {name v : List Char}
    (hv : v ∈ gen_fuzzy_crate_names name) :
    ((sepPositions name 0).take 10 = [] ∧ v = name) ∨
    (∃ mask < 2 ^ ((sepPositions name 0).take 10).length,
      v = setWildcards name ((sepPositions name 0).take 10) mask 0) := by
  simp only [gen_fuzzy_crate_names] at hv
  by_cases h : (sepPositions name 0).take 10 = []
  · rw [if_pos h] at hv
    simp only [List.mem_singleton] at hv
    exact Or.inl ⟨h, hv⟩
  · rw [if_neg h] at hv
    obtain ⟨mask, hmask, hval⟩ := List.mem_map.mp hv
    exact Or.inr ⟨mask, List.mem_range.mp hmask, hval.symm⟩

theorem gen_fuzzy_shape {name v : List Char}
    (hv : v ∈ gen_fuzzy_crate_names name) :
    v.length = name.length ∧
    (∀ j, j ∉ (sepPositions name 0).take 10 → v[j]? = name[j]?) ∧
    (∀ j ∈ (sepPositions name 0).take 10,
      v[j]? = some '-' ∨ v[j]? = some '_') := by
  rcases gen_fuzzy_mem_cases hv with ⟨he, rfl⟩ | ⟨mask, hm, rfl⟩
  · refine ⟨rfl, fun j _ => rfl, ?_⟩
    rw [he]
    simp
  · refine ⟨length_setWildcards _ _ _ _,
      fun j hj => getElem?_setWildcards_not_mem _ _ _ _ _ hj, ?_⟩
    intro j hj
    obtain ⟨⟨n, hn⟩, hget⟩ := List.mem_iff_get.mp hj
    have hb : ((sepPositions name 0).take 10).get ⟨n, hn⟩ < name.length := by
      rw [hget]
      exact sep_take_lt name j hj
    have hat := getElem?_setWildcards_at _ name mask 0 n hn
      (sep_take_nodup name) hb
    rw [hget] at hat
    rw [hat]
    split
    · exact Or.inl rfl
    · exact Or.inr rfl

theorem setWildcards_mask_inj {name : List Char} {m1 m2 : Nat}
    (h1 : m1 < 2 ^ ((sepPositions name 0).take 10).length)
    (h2 : m2 < 2 ^ ((sepPositions name 0).take 10).length)
    (heq : setWildcards name ((sepPositions name 0).take 10) m1 0 =
      setWildcards name ((sepPositions name 0).take 10) m2 0) :
    m1 = m2 := by
  apply Nat.eq_of_testBit_eq
  intro n
  by_cases hn : n < ((sepPositions name 0).take 10).length
  · have hb : ((sepPositions name 0).take 10).get ⟨n, hn⟩ < name.length :=
      sep_take_lt name _ (List.get_mem _ _ _)
    have e1 := getElem?_setWildcards_at _ name m1 0 n hn
      (sep_take_nodup name) hb
    have e2 := getElem?_setWildcards_at _ name m2 0 n hn
      (sep_take_nodup name) hb
    rw [heq] at e1
    rw [e2] at e1
    have hif := Option.some.inj e1
    simp only [Nat.zero_add] at hif
    by_cases b1 : (m1 >>> n) &&& 1 = 1 <;>
      by_cases b2 : (m2 >>> n) &&& 1 = 1
    · rw [(shift_and_one m1 n).mp b1, (shift_and_one m2 n).mp b2]
    · rw [if_neg b2, if_pos b1] at hif
      exact absurd hif (by decide)
    · rw [if_pos b2, if_neg b1] at hif
      exact absurd hif (by decide)
    · have t1 : m1.testBit n = false :=
        Bool.eq_false_iff.mpr (fun ht => b1 ((shift_and_one m1 n).mpr ht))
      have t2 : m2.testBit n = false :=
        Bool.eq_false_iff.mpr (fun ht => b2 ((shift_and_one m2 n).mpr ht))
      rw [t1, t2]
  · have hle : 2 ^ ((sepPositions name 0).take 10).length ≤ 2 ^ n :=
      Nat.pow_le_pow_right (by omega) (by omega)
    rw [Nat.testBit_eq_false_of_lt (lt_of_lt_of_le h1 hle),
      Nat.testBit_eq_false_of_lt (lt_of_lt_of_le h2 hle)]

theorem gen_fuzzy_nodup (name : List Char) :
    (gen_fuzzy_crate_names name).Nodup := by
  simp only [gen_fuzzy_crate_names]
  split
  · simp
  · refine List.Nodup.map_on ?_ (List.nodup_range _)
    intro x hx y hy hxy
    exact setWildcards_mask_inj (List.mem_range.mp hx)
      (List.mem_range.mp hy) hxy

theorem gen_fuzzy_length (name : List Char)
    (h : ¬(sepPositions name 0).take 10 = []) :
    (gen_fuzzy_crate_names name).length =
      2 ^ ((sepPositions name 0).take 10).length := by
  simp only [gen_fuzzy_crate_names]
  rw [if_neg h]
  simp

/-- The bitmask whose variant reproduces the original name: bit n is set
exactly when the character at the n-th wildcard index is '-'. -/
def origMask (name : List Char) : List Nat → Nat
  | [] => 0
  | i :: rest =>
      (if name[i]? = some '-' then 1 else 0) + 2 * origMask name rest

theorem origMask_lt (name : List Char) :
    ∀ idxs : List Nat, origMask name idxs < 2 ^ idxs.length := by
  intro idxs
  induction idxs with
  | nil => simp [origMask]
  | cons i rest ih =>
    simp only [origMask, List.length_cons, Nat.pow_succ]
    split <;> omega

theorem testBit_origMask (name : List Char) :
    ∀ (idxs : List Nat) (n : Nat) (hn : n < idxs.length),
      (origMask name idxs).testBit n =
        decide (name[idxs.get ⟨n, hn⟩]? = some '-') := by
  intro idxs
  induction idxs with
  | nil => intro n hn; simp at hn
  | cons i rest ih =>
    intro n hn
    cases n with
    | zero =>
      simp only [origMask, List.get]
      rw [Nat.testBit_zero]
      split <;> rename_i hc <;> simp [Nat.add_mul_mod_self_left, hc]
    | succ m =>
      have hm : m < rest.length := Nat.lt_of_succ_lt_succ hn
      simp only [origMask, List.get]
      rw [Nat.testBit_add_one]
      have hdiv : ((if name[i]? = some '-' then 1 else 0)
          + 2 * origMask name rest) / 2 = origMask name rest := by
        split <;> omega
      rw [hdiv]
      exact ih m hm

theorem setWildcards_origMask (name : List Char) :
    setWildcards name ((sepPositions name 0).take 10)
      (origMask name ((sepPositions name 0).take 10)) 0 = name := by
  apply List.ext_getElem?
  intro n
  by_cases hmem : n ∈ (sepPositions name 0).take 10
  · obtain ⟨⟨idx, hidx⟩, hget⟩ := List.mem_iff_get.mp hmem
    obtain ⟨c, hc, hsep⟩ := sep_take_spec name n hmem
    have hb : ((sepPositions name 0).take 10).get ⟨idx, hidx⟩
        < name.length := by
      rw [hget]
      exact sep_take_lt name n hmem
    have hat := getElem?_setWildcards_at _ name
      (origMask name ((sepPositions name 0).take 10)) 0 idx hidx
      (sep_take_nodup name) hb
    rw [hget] at hat
    rw [hat, hc]
    have hbit := testBit_origMask name _ idx hidx
    rw [hget, hc] at hbit
    have hc2 : c = '-' ∨ c = '_' := by
      simp [isSep] at hsep
      exact hsep
    rcases hc2 with rfl | rfl
    · have hcond : (origMask name ((sepPositions name 0).take 10)
          >>> (0 + idx)) &&& 1 = 1 := by
        rw [Nat.zero_add]
        refine (shift_and_one _ _).mpr ?_
        rw [hbit]
        simp
      rw [if_pos hcond]
    · have hcond : ¬((origMask name ((sepPositions name 0).take 10)
          >>> (0 + idx)) &&& 1 = 1) := by
        rw [Nat.zero_add]
        intro hb1
        have hbt := (shift_and_one _ _).mp hb1
        rw [hbit] at hbt
        simp at hbt
      rw [if_neg hcond]
  · rw [getElem?_setWildcards_not_mem _ _ _ _ _ hmem]

theorem orig_mem_gen_fuzzy (name : List Char) :
    name ∈ gen_fuzzy_crate_names name := by
  simp only [gen_fuzzy_crate_names]
  split
  · simp
  · rw [List.mem_map]
    exact ⟨origMask name _, List.mem_range.mpr (origMask_lt name _),
      setWildcards_origMask name⟩

theorem sepPositions_eq_nil (name : List Char)
    (h : ∀ c ∈ name, isSep c = false) : sepPositions name 0 = [] := by
  rw [← List.length_eq_zero, sepPositions_length, List.length_eq_zero,
    List.filter_eq_nil_iff]
  intro a ha
  simp [h a ha]

/-- C3: a name with no separator yields exactly one variant equal to the
input; a name with k separator occurrences (k at most 10) yields exactly
2^k pairwise-distinct variants, each identical to the input away from the
separator positions and holding '-' or '_' at each separator position
(sepPositions is proved to enumerate exactly the separator positions). -/
theorem claim_C3 :
    (∀ name : List Char, (∀ c ∈ name, isSep c = false) →
      gen_fuzzy_crate_names name = [name]) ∧
    (∀ name : List Char, (name.filter isSep).length ≤ 10 →
      (gen_fuzzy_crate_names name).length =
        2 ^ (name.filter isSep).length ∧
      (gen_fuzzy_crate_names name).Nodup ∧
      (∀ j, j ∈ sepPositions name 0 ↔
        ∃ c, name[j]? = some c ∧ isSep c = true) ∧
      ∀ v ∈ gen_fuzzy_crate_names name,
        v.length = name.length ∧
        (∀ j, j ∉ sepPositions name 0 → v[j]? = name[j]?) ∧
        (∀ j ∈ sepPositions name 0,
          v[j]? = some '-' ∨ v[j]? = some '_')) := by
  constructor
  · intro name h
    have hnil : sepPositions name 0 = [] := sepPositions_eq_nil name h
    simp only [gen_fuzzy_crate_names, hnil]
    simp
  · intro name hk
    have hlen : (sepPositions name 0).length = (name.filter isSep).length :=
      sepPositions_length name 0
    have htake : (sepPositions name 0).take 10 = sepPositions name 0 :=
      List.take_of_length_le (by omega)
    refine ⟨?_, gen_fuzzy_nodup name,
      fun j => mem_sepPositions_zero name j, ?_⟩
    · by_cases hnil : sepPositions name 0 = []
      · have h0 : (name.filter isSep).length = 0 := by
          rw [← hlen, hnil]
          rfl
        rw [h0]
        simp only [gen_fuzzy_crate_names, hnil]
        simp
      · rw [gen_fuzzy_length name (by rw [htake]; exact hnil), htake, hlen]
    · intro v hv
      obtain ⟨h1, h2, h3⟩ := gen_fuzzy_shape hv
      rw [htake] at h2 h3
      exact ⟨h1, h2, h3⟩

/-- Witness for C3: a separator-free name maps to itself alone, and a
name with two separators satisfies the counting and shape properties. -/
theorem claim_C3_witness :
    gen_fuzzy_crate_names ['c', 'a', 'b'] = [['c', 'a', 'b']] ∧
    ((gen_fuzzy_crate_names ['a', '-', 'b', '_', 'c']).length =
        2 ^ ((['a', '-', 'b', '_', 'c'].filter isSep).length) ∧
      (gen_fuzzy_crate_names ['a', '-', 'b', '_', 'c']).Nodup ∧
      (∀ j, j ∈ sepPositions ['a', '-', 'b', '_', 'c'] 0 ↔
        ∃ c, ['a', '-', 'b', '_', 'c'][j]? = some c ∧ isSep c = true) ∧
      ∀ v ∈ gen_fuzzy_crate_names ['a', '-', 'b', '_', 'c'],
        v.length = (['a', '-', 'b', '_', 'c'] : List Char).length ∧
        (∀ j, j ∉ sepPositions ['a', '-', 'b', '_', 'c'] 0 →
          v[j]? = ['a', '-', 'b', '_', 'c'][j]?) ∧
        (∀ j ∈ sepPositions ['a', '-', 'b', '_', 'c'] 0,
          v[j]? = some '-' ∨ v[j]? = some '_')) :=
  ⟨claim_C3.1 ['c', 'a', 'b'] (by decide),
   claim_C3.2 ['a', '-', 'b', '_', 'c'] (by decide)⟩

/-- C10: a name with more than 10 separator occurrences yields exactly
2^10 = 1024 pairwise-distinct variants; only the first 10 separator
positions are toggled, every position outside them (separator occurrences
past the tenth included) keeps its original character, and the original
name is always among the variants. -/
theorem claim_C10 :
    ∀ name : List Char, 10 < (name.filter isSep).length →
      (gen_fuzzy_crate_names name).length = 1024 ∧
      (gen_fuzzy_crate_names name).Nodup ∧
      ((sepPositions name 0).take 10).length = 10 ∧
      (∀ v ∈ gen_fuzzy_crate_names name,
        v.length = name.length ∧
        (∀ j, j ∉ (sepPositions name 0).take 10 → v[j]? = name[j]?) ∧
        (∀ j ∈ (sepPositions name 0).take 10,
          v[j]? = some '-' ∨ v[j]? = some '_')) ∧
      name ∈ gen_fuzzy_crate_names name := by
  intro name hk
  have hlen : (sepPositions name 0).length = (name.filter isSep).length :=
    sepPositions_length name 0
  have htl : ((sepPositions name 0).take 10).length = 10 := by
    rw [List.length_take]
    omega
  have hne : (sepPositions name 0).take 10 ≠ [] := by
    intro h
    rw [h] at htl
    simp at htl
  refine ⟨?_, gen_fuzzy_nodup name, htl,
    fun v hv => gen_fuzzy_shape hv, orig_mem_gen_fuzzy name⟩
  rw [gen_fuzzy_length name hne, htl]
  norm_num

/-- Witness for C10: an eleven-separator name has more than 10 separator
occurrences and satisfies the 1024-variant property. -/
theorem claim_C10_witness :
    10 < ((['-', '-', '-', '-', '-', '-', '-', '-', '-', '-', '-'] :
      List Char).filter isSep).length ∧
    (gen_fuzzy_crate_names
      ['-', '-', '-', '-', '-', '-', '-', '-', '-', '-', '-']).length
      = 1024 :=
  ⟨by decide,
   (claim_C10 ['-', '-', '-', '-', '-', '-', '-', '-', '-', '-', '-']
     (by decide)).1⟩

/-! ## Probing order (fuzzy_query_registry_index, src/fetch.rs) -/

/-- Iterator::position: index of the first element satisfying p. -/
def position {α : Type} (p : α → Bool) : List α → Option Nat
  | [] => none
  | a :: as => if p a then some 0 else (position p as).map (fun n => n + 1)

/-- Slice swap of two valid indices (names.swap(index, 0) in the
source); out-of-range indices leave the list unchanged (the source would
panic, but both indices are in range at the call site). -/
def swapList {α : Type} (l : List α) (i j : Nat) : List α :=
  if h : i < l.length ∧ j < l.length then
    (l.set i (l.get ⟨j, h.2⟩)).set j (l.get ⟨i, h.1⟩)
  else l

/-- The list of names fuzzy_query_registry_index probes, in order:
the fuzzy variants with the exact input name, when present, swapped to
the front. -/
def probe_names (crate_name : List Char) : List (List Char) :=
  match position (fun x => decide (x = crate_name))
      (gen_fuzzy_crate_names crate_name) with
  | some i => swapList (gen_fuzzy_crate_names crate_name) i 0
  | none => gen_fuzzy_crate_names crate_name

theorem position_some {α : Type} (p : α → Bool) :
    ∀ (l : List α) (i : Nat), position p l = some i →
      ∃ h : i < l.length, p (l.get ⟨i, h⟩) = true := by
  intro l
  induction l with
  | nil => intro i h; simp [position] at h
  | cons a as ih =>
    intro i h
    simp only [position] at h
    split at h <;> rename_i hp
    · cases h
      exact ⟨Nat.succ_pos _, hp⟩
    · rcases Option.map_eq_some'.mp h with ⟨j, hj, rfl⟩
      obtain ⟨hlt, hget⟩ := ih j hj
      exact ⟨Nat.succ_lt_succ hlt, hget⟩

theorem position_of_mem {α : Type} (p : α → Bool) :
    ∀ (l : List α) (x : α), x ∈ l → p x = true →
      ∃ i, position p l = some i := by
  intro l
  induction l with
  | nil => intro x hx hp; exact (List.not_mem_nil x hx).elim
  | cons a as ih =>
    intro x hx hp
    simp only [position]
    by_cases hpa : p a = true
    · exact ⟨0, by rw [if_pos hpa]⟩
    · rcases List.mem_cons.mp hx with rfl | hx2
      · exact absurd hp hpa
      · obtain ⟨i, hi⟩ := ih x hx2 hp
        refine ⟨i + 1, ?_⟩
        rw [if_neg hpa, hi]
        rfl

/-- C4: whenever the exact original name occurs among the generated fuzzy
variants, the probed list has it as its first element; the remaining
order is fixed by the same pure computation on the same input. -/
theorem claim_C4 :
    ∀ crate_name : List Char,
      crate_name ∈ gen_fuzzy_crate_names crate_name →
      (probe_names crate_name).head? = some crate_name := by
  intro cn hmem
  obtain ⟨i, hpos⟩ := position_of_mem (fun x => decide (x = cn)) _ cn hmem
    (by simp)
  obtain ⟨hlt, hget⟩ := position_some _ _ i hpos
  unfold probe_names
  rw [hpos]
  show (swapList (gen_fuzzy_crate_names cn) i 0).head? = some cn
  unfold swapList
  have h0 : (0 : Nat) < (gen_fuzzy_crate_names cn).length :=
    Nat.lt_of_le_of_lt (Nat.zero_le i) hlt
  rw [dif_pos ⟨hlt, h0⟩, List.head?_eq_getElem?]
  rw [List.getElem?_set_self
    (by rw [List.length_set]; exact h0)]
  have : (gen_fuzzy_crate_names cn).get ⟨i, hlt⟩ = cn :=
    of_decide_eq_true hget
  rw [this]

/-- Witness for C4: for the two-variant name a-b the original spelling is
probed first. -/
theorem claim_C4_witness :
    (probe_names ['a', '-', 'b']).head? = some ['a', '-', 'b'] :=
  claim_C4 ['a', '-', 'b'] (by decide)

/-! ## Specifier parsing (src/crate_name.rs) -/

/-- Split at the first occurrence of c (str::splitn(2, c) followed by
taking both pieces): none when c does not occur, otherwise the text
before and the text after the first occurrence. -/
def splitFirst (c : Char) : List Char → Option (List Char × List Char)
  | [] => none
  | x :: xs =>
      if x = c then some ([], xs)
      else (splitFirst c xs).map (fun p => (x :: p.1, p.2))

theorem splitFirst_length {c : Char} :
    ∀ {s : List Char} {l r : List Char},
      splitFirst c s = some (l, r) → r.length < s.length := by
  intro s
  induction s with
  | nil => intro l r h; simp [splitFirst] at h
  | cons x xs ih =>
    intro l r h
    simp only [splitFirst] at h
    split at h
    · cases h
      simp
    · rcases Option.map_eq_some'.mp h with ⟨⟨l2, r2⟩, hlr, heq⟩
      cases heq
      have := ih hlr
      simp only [List.length_cons]
      omega

/-- Pieces of str::split(c): the text between occurrences of c; an input
with no occurrence yields one piece, so the empty string yields one empty
piece, as in Rust. -/
def splitAll (c : Char) : List Char → List (List Char)
  | [] => [[]]
  | x :: xs =>
      if x = c then [] :: splitAll c xs
      else
        match splitAll c xs with
        | [] => [[x]]
        | p :: ps => (x :: p) :: ps

/-! Modelled from the spec: `semver::VersionReq::parse` is external to
this repository (the semver crate).  The spec describes the accepted
syntax as "standard semantic-versioning range operators (caret default,
tilde, exact, wildcard, comparator sets)" — a comma-separated list of
comparators, each an optional operator over a dotted numeric-or-wildcard
version pattern with an optional prerelease tag.  Only validity
(accept or reject) is modelled, which is all parse_version_or_features
uses of the parse result. -/

/-- Validity of one dotted numeric component of a requirement. -/
def numOK (p : List Char) : Bool := !p.isEmpty && p.all (fun c => c.isDigit)

/-- Validity of a wildcard component. -/
def wildOK (p : List Char) : Bool := p = ['*'] || p = ['x'] || p = ['X']

/-- Validity of the major.minor.patch part of a comparator: one to three
dot-separated components, each numeric or a wildcard. -/
def coreOK (s : List Char) : Bool :=
  decide ((splitAll '.' s).length ≤ 3) &&
  (splitAll '.' s).all (fun p => numOK p || wildOK p)

/-- Validity of a prerelease tag: dot-separated nonempty alphanumeric or
hyphen identifiers. -/
def preOK (s : List Char) : Bool :=
  (splitAll '.' s).all (fun p => !p.isEmpty &&
    p.all (fun c => c.isAlphanum || c = '-'))

/-- Strip one leading comparison operator. -/
def dropOp : List Char → List Char
  | '^' :: r => r
  | '~' :: r => r
  | '=' :: r => r
  | '>' :: '=' :: r => r
  | '<' :: '=' :: r => r
  | '>' :: r => r
  | '<' :: r => r
  | s => s

/-- Whitespace trimming around one comparator. -/
def trimSp (s : List Char) : List Char :=
  ((s.dropWhile (fun c => c = ' ')).reverse.dropWhile
    (fun c => c = ' ')).reverse

/-- Validity of one comparator. -/
def compOK (s : List Char) : Bool :=
  match splitFirst '-' (dropOp (trimSp s)) with
  | none => coreOK (dropOp (trimSp s))
  | some (core, pre) => coreOK core && preOK pre

/-- Validity of a whole version requirement. -/
def reqParse (s : List Char) : Bool := (splitAll ',' s).all compOK

example : reqParse "1.0".toList = true := by decide
example : reqParse "^0.8".toList = true := by decide
example : reqParse ">=1.2.3, <2".toList = true := by decide
example : reqParse ">=1.2.3".toList = true := by decide
example : reqParse "1.0.0-alpha.1".toList = true := by decide
example : reqParse "not-a-version".toList = false := by decide

/-- Errors surfaced by specifier parsing; the error kind is modelled from
the spec taxonomy (the source's errors module is outside src/; the code
wraps the semver parse failure with chain_err at the same point). -/
inductive CrateNameError : Type
  | invalidVersionRequirement (text : List Char)
deriving DecidableEq, Repr

/-- CrateName::parse_version_or_features (src/crate_name.rs): when the
specifier contains '+', the text before the first '+' becomes the name
and the text after it the feature list; when the specifier contains '@',
the name is overwritten with the text of the whole specifier before the
first '@', the text after it must parse as a version requirement, and a
parse failure aborts with an error; a dependency is returned when
features or a version were found, none otherwise. -/
def parse_version_or_features (s : List Char) :
    Except CrateNameError (Option Dependency) :=
  let nf : List Char × Option (List Char) :=
    match splitFirst '+' s with
    | some (l, r) => (l, some r)
    | none => (s, none)
  match splitFirst '@' s with
  | some (l, r) =>
      if reqParse r then
        .ok (some { name := l
                    version := some r
                    features := nf.2.map (fun f => splitAll ',' f)
                    available_features := [] })
      else .error (.invalidVersionRequirement r)
  | none =>
      match nf.2 with
      | some f =>
          .ok (some { name := nf.1
                      version := none
                      features := some (splitAll ',' f)
                      available_features := [] })
      | none => .ok none

example : parse_version_or_features "docopt".toList = .ok none := by decide

example : parse_version_or_features "docopt@^0.8".toList =
    .ok (some ⟨"docopt".toList, some "^0.8".toList, none, []⟩) := by decide

/-- C5: for every specifier containing '@' whose part after the first '@'
does not parse as a version requirement, parse_version_or_features
returns an InvalidVersionRequirement error carrying that text; it never
succeeds with a defaulted or ignored requirement. -/
theorem claim_C5 :
    ∀ (s l r : List Char), splitFirst '@' s = some (l, r) →
      reqParse r = false →
      parse_version_or_features s =
        .error (.invalidVersionRequirement r) := by
  intro s l r hsplit hreq
  simp [parse_version_or_features, hsplit, hreq]

/-- Witness for C5: the spec example name@not-a-version fails with the
error naming not-a-version. -/
theorem claim_C5_witness :
    parse_version_or_features "name@not-a-version".toList =
      .error (.invalidVersionRequirement "not-a-version".toList) :=
  claim_C5 "name@not-a-version".toList "name".toList
    "not-a-version".toList (by decide) (by decide)

/-- Counterexample to C6 as stated: on a+b@1.0 the descriptor's name is
the text before the first '@', which is a+b and still contains '+' — not
the text before the first '+'. -/
theorem claim_C6_counterexample :
    parse_version_or_features "a+b@1.0".toList =
      .ok (some ⟨"a+b".toList, some "1.0".toList,
        some ["b@1.0".toList], []⟩) ∧
    '+' ∈ ("a+b".toList) := by decide

/-- C6 (amended): for a specifier containing both '+' and '@', the '+'
split provides the feature list, but the '@' split is applied to the
whole original specifier, so the name field of the resulting descriptor
is the text before the first '@' (for the name+features@req shape it
still contains the '+' and the feature text), and the features are the
comma-separated pieces of the text after the first '+'. -/
theorem claim_C6_amended :
    ∀ (s ln rn l r : List Char),
      splitFirst '+' s = some (ln, rn) →
      splitFirst '@' s = some (l, r) →
      reqParse r = true →
      parse_version_or_features s =
        .ok (some { name := l
                    version := some r
                    features := some (splitAll ',' rn)
                    available_features := [] }) := by
  intro s ln rn l r hplus hat hreq
  simp [parse_version_or_features, hplus, hat, hreq]

/-- Witness for C6 (amended): a+b@1.0 parses with name a+b, version
requirement 1.0 and feature text b@1.0. -/
theorem claim_C6_amended_witness :
    parse_version_or_features "a+b@1.0".toList =
      .ok (some { name := "a+b".toList
                  version := some "1.0".toList
                  features := some (splitAll ',' "b@1.0".toList)
                  available_features := [] }) :=
  claim_C6_amended "a+b@1.0".toList "a".toList "b@1.0".toList
    "a+b".toList "1.0".toList (by decide) (by decide) (by decide)

/-- C7: for every specifier of shape name+features with no '@', parsing
yields a descriptor whose name is the part before the first '+', whose
features are the comma-separated pieces of the part after it, and which
has no version set. -/
theorem claim_C7 :
    ∀ (s l r : List Char), splitFirst '+' s = some (l, r) →
      splitFirst '@' s = none →
      parse_version_or_features s =
        .ok (some { name := l
                    version := none
                    features := some (splitAll ',' r)
                    available_features := [] }) := by
  intro s l r hplus hat
  simp [parse_version_or_features, hplus, hat]

/-- Witness for C7: name+featA,featB yields features {featA, featB} and
no version. -/
theorem claim_C7_witness :
    parse_version_or_features "name+featA,featB".toList =
      .ok (some { name := "name".toList
                  version := none
                  features := some ["featA".toList, "featB".toList]
                  available_features := [] }) := by
  rw [claim_C7 "name+featA,featB".toList "name".toList
    "featA,featB".toList (by decide) (by decide)]
  decide

/-! ## Repository-URL classification (src/fetch.rs) -/

/-- Substring containment (str::contains with a literal pattern). -/
def containsSub (pat s : List Char) : Bool :=
  (List.range (s.length + 1)).any (fun i => pat.isPrefixOf (s.drop i))

/-- is_github_url (src/fetch.rs): containment, not prefix, of the
literal host text. -/
def is_github_url (url : List Char) : Bool :=
  containsSub "https://github.com".toList url

/-- is_gitlab_url (src/fetch.rs). -/
def is_gitlab_url (url : List Char) : Bool :=
  containsSub "https://gitlab.com".toList url

/-- A character of the regex class [-_0-9a-zA-Z]. -/
def isRepoChar (c : Char) : Bool := c = '-' || c = '_' || c.isAlphanum

/-- Match a pattern of literal characters (some c) and single-character
wildcards (none, the regex unescaped dot) against the start of a string,
returning the remainder on success. -/
def matchPat : List (Option Char) → List Char → Option (List Char)
  | [], s => some s
  | _ :: _, [] => none
  | p :: ps, c :: cs =>
      match p with
      | some pc => if c = pc then matchPat ps cs else none
      | none => matchPat ps cs

/-- The anchored host part of the GitHub repository regex,
^https://github.com/ with its dot left unescaped (a wildcard). -/
def githubHostPat : List (Option Char) :=
  ("https://github".toList.map some) ++ [none] ++ ("com/".toList.map some)

/-- The anchored host part of the GitLab repository regex. -/
def gitlabHostPat : List (Option Char) :=
  ("https://gitlab".toList.map some) ++ [none] ++ ("com/".toList.map some)

/-- Captures of the repository regex
^https://host/([-_0-9a-zA-Z]+)/([-_0-9a-zA-Z]+)(/|.git)?$ in which the
unescaped dots match any character: the owner and repository names, or
none when the regex does not match.  Greedy matching of the two
character-class groups is equivalent to the regex's backtracking search:
a shortened group would have to be followed by a character of its own
class at a position where the pattern requires '/' or the end-anchored
suffix, which that class excludes. -/
def repoCapture (hostPat : List (Option Char)) (url : List Char) :
    Option (List Char × List Char) :=
  match matchPat hostPat url with
  | none => none
  | some rest =>
      if (rest.takeWhile isRepoChar).isEmpty then none
      else
        match rest.dropWhile isRepoChar with
        | '/' :: rest2 =>
            if (rest2.takeWhile isRepoChar).isEmpty then none
            else
              match rest2.dropWhile isRepoChar with
              | [] => some (rest.takeWhile isRepoChar,
                  rest2.takeWhile isRepoChar)
              | ['/'] => some (rest.takeWhile isRepoChar,
                  rest2.takeWhile isRepoChar)
              | [_, 'g', 'i', 't'] => some (rest.takeWhile isRepoChar,
                  rest2.takeWhile isRepoChar)
              | _ => none
        | _ => none

/-- Outcome of get_manifest_from_url up to the point of I/O. -/
inductive ManifestOutcome : Type
  | noManifest
  | unrecognizedUrl
  | fetch (user repo : List Char) (gitlab : Bool)
deriving DecidableEq, Repr

/-- get_manifest_from_url (src/fetch.rs), stopping at the I/O boundary:
classify the URL by substring containment; a classified URL failing the
host's repository regex yields the unrecognized-repository-URL error of
get_manifest_from_repository before any HTTP request; a matching one
proceeds to fetch the manifest for the captured owner and repository;
an unclassified URL yields no manifest. -/
def get_manifest_from_url (url : List Char) : ManifestOutcome :=
  if is_github_url url then
    match repoCapture githubHostPat url with
    | some (user, repo) => .fetch user repo false
    | none => .unrecognizedUrl
  else if is_gitlab_url url then
    match repoCapture gitlabHostPat url with
    | some (user, repo) => .fetch user repo true
    | none => .unrecognizedUrl
  else .noManifest

/-- The strict owner/repo pattern in the spec's words: the literal host
prefix, then '/', owner and repo made of alphanumerics, hyphen and
underscore, optionally followed by exactly '/' or the literal text
.git. -/
def specStrictRepoUrl (host url : List Char) : Bool :=
  match matchPat (host.map some ++ [some '/']) url with
  | none => false
  | some rest =>
      if (rest.takeWhile isRepoChar).isEmpty then false
      else
        match rest.dropWhile isRepoChar with
        | '/' :: rest2 =>
            !(rest2.takeWhile isRepoChar).isEmpty &&
            (decide (rest2.dropWhile isRepoChar = []) ||
             decide (rest2.dropWhile isRepoChar = ['/']) ||
             decide (rest2.dropWhile isRepoChar = ['.', 'g', 'i', 't']))
        | _ => false

example : get_manifest_from_url "https://github.com/foo/bar".toList =
    .fetch "foo".toList "bar".toList false := by decide

example : get_manifest_from_url "https://github.com/foo/bar.git".toList =
    .fetch "foo".toList "bar".toList false := by decide

example : get_manifest_from_url "https://gitlab.com/foo/bar/".toList =
    .fetch "foo".toList "bar".toList true := by decide

example : get_manifest_from_url "http://example.com/foo/bar".toList =
    .noManifest := by decide

example : get_manifest_from_url "https://github.com/foo".toList =
    .unrecognizedUrl := by decide

/-- Counterexample to C8 as stated: the string
Xhttps://github.com/a/b is classified as a GitHub source although it
does not match the literal prefix (is_github_url tests containment, not
prefix); and https://github.com/a/b=git proceeds to a fetch although its
remainder does not match the spec's strict owner/repo pattern (the
regex's '.git' alternative has an unescaped dot, so '=git' is
accepted). -/
theorem claim_C8_counterexample :
    (is_github_url "Xhttps://github.com/a/b".toList = true ∧
      List.isPrefixOf "https://github.com".toList
        "Xhttps://github.com/a/b".toList = false ∧
      get_manifest_from_url "Xhttps://github.com/a/b".toList ≠
        .noManifest) ∧
    (get_manifest_from_url "https://github.com/a/b=git".toList =
        .fetch "a".toList "b".toList false ∧
      specStrictRepoUrl "https://github.com".toList
        "https://github.com/a/b=git".toList = false) := by decide

theorem get_manifest_eq_noManifest_iff (url : List Char) :
    get_manifest_from_url url = .noManifest ↔
      is_github_url url = false ∧ is_gitlab_url url = false := by
  unfold get_manifest_from_url
  by_cases hg : is_github_url url
  · rw [if_pos hg]
    cases hcap : repoCapture githubHostPat url with
    | none => simp [hg]
    | some pr =>
      obtain ⟨u, r⟩ := pr
      simp [hg]
  · rw [if_neg hg]
    by_cases hl : is_gitlab_url url
    · rw [if_pos hl]
      cases hcap : repoCapture gitlabHostPat url with
      | none => simp [hl]
      | some pr =>
        obtain ⟨u, r⟩ := pr
        simp [hl]
    · rw [if_neg hl]
      simp [Bool.eq_false_iff, hg, hl]

/-- C8 (amended): a URL is classified as a GitHub or GitLab manifest
source exactly when it contains the literal substring https://github.com
or https://gitlab.com (any other string yields no manifest from
get_manifest_from_url); and a classified URL whose text does not match
the anchored repository regex
^https://host/([-_0-9a-zA-Z]+)/([-_0-9a-zA-Z]+)(/|.git)?$ — with its
dots unescaped, so '.git' accepts any character before 'git' — fails
with the unrecognized-repository-URL error before any HTTP fetch is
attempted. -/
theorem claim_C8_amended :
    ∀ url : List Char,
      (get_manifest_from_url url = .noManifest ↔
        is_github_url url = false ∧ is_gitlab_url url = false) ∧
      (is_github_url url = true → repoCapture githubHostPat url = none →
        get_manifest_from_url url = .unrecognizedUrl) ∧
      (is_github_url url = false → is_gitlab_url url = true →
        repoCapture gitlabHostPat url = none →
        get_manifest_from_url url = .unrecognizedUrl) := by
  intro url
  refine ⟨get_manifest_eq_noManifest_iff url, ?_, ?_⟩
  · intro hg hcap
    unfold get_manifest_from_url
    rw [if_pos hg, hcap]
  · intro hg hl hcap
    unfold get_manifest_from_url
    rw [if_neg (by simp [hg]), if_pos hl, hcap]

/-- Witness for C8 (amended): a GitHub URL with no repository part is
rejected as unrecognized before any fetch. -/
theorem claim_C8_amended_witness :
    get_manifest_from_url "https://github.com/onlyowner".toList =
      .unrecognizedUrl :=
  (claim_C8_amended "https://github.com/onlyowner".toList).2.1
    (by decide) (by decide)

/-! ## Registry-index update retry (src/fetch.rs) -/

/-- git2 error classes as distinguished by need_retry. -/
inductive GitErrClass : Type
  | index
  | otherClass
deriving DecidableEq, Repr

/-- git2 error codes as distinguished by need_retry. -/
inductive GitErrCode : Type
  | locked
  | otherCode
deriving DecidableEq, Repr

/-- Outcome of one crates_index Index::update() call, as need_retry
inspects it. -/
inductive UpdateResult : Type
  | ok
  | gitErr (cls : GitErrClass) (code : GitErrCode)
  | otherErr
deriving DecidableEq, Repr

/-- Errors propagated out of the update loop. -/
inductive RegError : Type
  | git (cls : GitErrClass) (code : GitErrCode)
  | other
deriving DecidableEq, Repr

/-- need_retry (src/fetch.rs): Ok means stop with success, a git error
of class Index with code Locked means retry, any other error
propagates. -/
def need_retry : UpdateResult → Except RegError Bool
  | .ok => .ok false
  | .gitErr cls code =>
      if cls = .index ∧ code = .locked then .ok true
      else .error (.git cls code)
  | .otherErr => .error .other

/-- REGISTRY_BACKOFF (src/fetch.rs): the fixed retry backoff, in
milliseconds. -/
def REGISTRY_BACKOFF : Nat := 1000

/-- Observable trace of the update loop: the backoff sleeps performed
(in milliseconds, one per blocked-message report) and the final result —
none when the supplied outcome sequence ends while the loop is still
retrying. -/
structure LoopTrace : Type where
  sleeps : List Nat
  result : Option (Except RegError Unit)
deriving DecidableEq, Repr

/-- update_registry_index (src/fetch.rs), with the successive results of
index.update() supplied by the environment as a sequence: while
need_retry answers true, report the blocked message, sleep the fixed
backoff and re-attempt; stop successfully on Ok(false); propagate any
error immediately. -/
def update_registry_index : List UpdateResult → LoopTrace
  | [] => ⟨[], none⟩
  | r :: rs =>
      match need_retry r with
      | .error e => ⟨[], some (.error e)⟩
      | .ok false => ⟨[], some (.ok ())⟩
      | .ok true =>
          ⟨REGISTRY_BACKOFF :: (update_registry_index rs).sleeps,
            (update_registry_index rs).result⟩

theorem need_retry_error_ne {r : UpdateResult} {e : RegError}
    (h : need_retry r = .error e) : e ≠ .git .index .locked := by
  cases r with
  | ok => cases h
  | otherErr =>
    injection h with h2
    subst h2
    intro hbad
    cases hbad
  | gitErr cls code =>
    by_cases hc : cls = .index ∧ code = .locked
    · simp only [need_retry] at h
      rw [if_pos hc] at h
      cases h
    · simp only [need_retry] at h
      rw [if_neg hc] at h
      injection h with h2
      subst h2
      intro hbad
      injection hbad with hc1 hc2
      exact hc ⟨hc1, hc2⟩

/-- C9: an index-locked failure (git error of class Index, code Locked,
and only that failure) makes the loop sleep the fixed one-second backoff
and re-attempt, and it is never the loop's terminal result; any other
failure terminates the loop immediately, with no sleep, on its first
occurrence. -/
theorem claim_C9 :
    (∀ r : UpdateResult,
      need_retry r = .ok true ↔ r = .gitErr .index .locked) ∧
    (∀ rs : List UpdateResult,
      update_registry_index (.gitErr .index .locked :: rs) =
        ⟨REGISTRY_BACKOFF :: (update_registry_index rs).sleeps,
          (update_registry_index rs).result⟩) ∧
    (∀ (r : UpdateResult) (rs : List UpdateResult) (e : RegError),
      need_retry r = .error e →
      update_registry_index (r :: rs) = ⟨[], some (.error e)⟩) ∧
    (∀ rs : List UpdateResult,
      (update_registry_index rs).result ≠
        some (.error (.git .index .locked))) := by
  refine ⟨?_, ?_, ?_, ?_⟩
  · intro r
    cases r with
    | ok => simp [need_retry]
    | otherErr => simp [need_retry]
    | gitErr cls code =>
      cases cls <;> cases code <;> simp [need_retry]
  · intro rs
    rfl
  · intro r rs e h
    simp [update_registry_index, h]
  · intro rs
    induction rs with
    | nil => simp [update_registry_index]
    | cons r rs ih =>
      cases hner : need_retry r with
      | error e =>
        simp only [update_registry_index, hner]
        intro hbad
        injection hbad with h2
        injection h2 with h3
        exact need_retry_error_ne hner h3
      | ok b =>
        cases b
        · simp [update_registry_index, hner]
        · simp only [update_registry_index, hner]
          exact ih

/-- Witness for C9: a network-style failure (neither class Index nor
code Locked) is fatal on the first attempt with no backoff sleep. -/
theorem claim_C9_witness :
    update_registry_index [.otherErr, .ok] = ⟨[], some (.error .other)⟩ :=
  claim_C9.2.2.1 .otherErr [.ok] .other (by decide)
